import Mathlib

/-!
Verification of the PyCodeJam pipeline (`code_jam.py`), shallowly embedded:
character streams are `List Char`, tokens are `List Char`, the token cursor
of a `Tokens` object is an explicit `List Token` threaded through each
operation, and the output sink is the list of strings flushed to it.
-/

/-- The ASCII whitespace characters recognised by Python's `str.split()`
(the library opens its streams with ASCII encoding, so only these occur). -/
def isSpace (c : Char) : Bool :=
  c = ' ' || c = '\t' || c = '\n' || c = '\r' || c = '\x0b' || c = '\x0c'

/-- Python text-file iteration (`for line in istr`): the stream split into
lines, each keeping its trailing newline; a final unterminated chunk is its
own line. -/
def splitLines : List Char → List (List Char)
  | [] => []
  | c :: cs =>
    if c = '\n' then ['\n'] :: splitLines cs
    else
      match splitLines cs with
      | [] => [[c]]
      | l :: ls => (c :: l) :: ls

/-- One line cut at every whitespace character, keeping empty fields
(helper for `pysplit`). -/
def fields : List Char → List (List Char)
  | [] => [[]]
  | c :: cs =>
    if isSpace c then [] :: fields cs
    else
      match fields cs with
      | [] => [[c]]
      | f :: fs => (c :: f) :: fs

/-- Python's `line.split()` with no separator: the whitespace-delimited
words of the line, empty fields discarded. -/
def pysplit (cs : List Char) : List (List Char) :=
  (fields cs).filter (fun f => !f.isEmpty)

/-- `Tokens.tokenize`: iterate over the lines of the stream and yield the
words of each line in order. -/
def tokenize (stream : List Char) : List (List Char) :=
  (splitLines stream).flatMap pysplit

/-- The maximal non-whitespace runs of a character stream, in stream order:
the specification's description of the token sequence, written directly as
"longest non-whitespace prefix, then recurse past it". -/
def maximalRuns : List Char → List (List Char)
  | [] => []
  | c :: cs =>
    if isSpace c then maximalRuns cs
    else
      (c :: cs.takeWhile (fun d => !isSpace d)) ::
        maximalRuns (cs.dropWhile (fun d => !isSpace d))
termination_by cs => cs.length
decreasing_by
  · exact Nat.lt_succ_self _
  · exact Nat.lt_succ_of_le (List.dropWhile_suffix _).length_le

/-- A raw token: a whitespace-delimited group of characters. -/
abbrev Token := List Char

/-- The two failure kinds of a typed token read: `exhausted` models the
StopIteration raised by `next` on a finished token generator, `parse`
models the ValueError raised by a conversion such as `int` on bad text. -/
inductive TokError where
  | exhausted
  | parse
  deriving DecidableEq, Repr

/-- Value of an ASCII digit character, if `c` is one. -/
def digitVal (c : Char) : Option Nat :=
  if '0' ≤ c && c ≤ '9' then some (c.toNat - 48) else none

def parseDigitsAux : List Char → Nat → Option Nat
  | [], acc => some acc
  | c :: cs, acc =>
    match digitVal c with
    | some d => parseDigitsAux cs (acc * 10 + d)
    | none => none

/-- A nonempty string of ASCII digits, as a number. -/
def parseDigits : List Char → Option Nat
  | [] => none
  | c :: cs => parseDigitsAux (c :: cs) 0

/-- Python's `int` conversion, restricted to what a whitespace-free token
can be: an optional sign followed by decimal digits.  (Python would also
accept grouping underscores between digits; that detail is not modelled.) -/
def pyInt : List Char → Option Int
  | '-' :: cs => (parseDigits cs).map (fun n => -(n : Int))
  | '+' :: cs => (parseDigits cs).map (fun n => (n : Int))
  | cs => (parseDigits cs).map (fun n => (n : Int))

/-- `Tokens.next_token`: pull one token off the cursor and convert it with
`t`.  After a failed conversion the token is still consumed, as in the
source, where `next(self.tokens)` runs before `t` is applied. -/
def next_token (t : Token → Option α) : List Token → Except TokError α × List Token
  | [] => (.error .exhausted, [])
  | tok :: rest =>
    match t tok with
    | some v => (.ok v, rest)
    | none => (.error .parse, rest)

/-- `Tokens.next_many_tokens`, with its lazy sequence fully consumed: read
`n` tokens of type `t`, returning the parsed values and the cursor after
the run; an error mid-run leaves the tokens already read consumed. -/
def next_many_tokens (t : Token → Option α) : Nat → List Token → Except TokError (List α) × List Token
  | 0, toks => (.ok [], toks)
  | n + 1, toks =>
    match next_token t toks with
    | (.ok v, rest) =>
      match next_many_tokens t n rest with
      | (.ok vs, rest2) => (.ok (v :: vs), rest2)
      | (.error e, rest2) => (.error e, rest2)
    | (.error e, rest) => (.error e, rest)

/-- `Tokens.next_counted_tokens`: read one token as an integer `n` (this
happens eagerly, as the argument of the generator call), then read `n`
tokens of type `t`.  Python's `range` of a negative count is empty, hence
`Int.toNat`. -/
def next_counted_tokens (t : Token → Option α) (toks : List Token) : Except TokError (List α) × List Token :=
  match next_token pyInt toks with
  | (.ok n, rest) => next_many_tokens t n.toNat rest
  | (.error e, rest) => (.error e, rest)

/-- The inner generator of `solve_code_jam`, run to completion: invoke the
single-case `solver` once per remaining case; an error from the solver's
token reads stops the run, keeping the solutions already produced. -/
def run_cases (solver : List Token → Except TokError α × List Token) : Nat → List Token → List α × Option TokError × List Token
  | 0, toks => ([], none, toks)
  | n + 1, toks =>
    match solver toks with
    | (.ok v, rest) =>
      match run_cases solver n rest with
      | (vs, e, rest2) => (v :: vs, e, rest2)
    | (.error e, rest) => ([], some e, rest)

/-- `solve_code_jam`'s counted driving: read the leading case count, then
run the single-case solver that many times. -/
def solve_counted (solver : List Token → Except TokError α × List Token) (toks : List Token) : List α × Option TokError × List Token :=
  match next_token pyInt toks with
  | (.ok n, rest) => run_cases solver n.toNat rest
  | (.error e, rest) => ([], some e, rest)

/-- The ten decimal digit characters. -/
def digitChar : Nat → Char
  | 0 => '0'
  | 1 => '1'
  | 2 => '2'
  | 3 => '3'
  | 4 => '4'
  | 5 => '5'
  | 6 => '6'
  | 7 => '7'
  | 8 => '8'
  | _ => '9'

def natCharsAux : Nat → Nat → List Char → List Char
  | 0, _, acc => acc
  | fuel + 1, n, acc =>
    if n < 10 then digitChar n :: acc
    else natCharsAux fuel (n / 10) (digitChar (n % 10) :: acc)

/-- Decimal rendering of a natural number, as `"{}".format` produces it. -/
def natChars (n : Nat) : List Char :=
  natCharsAux (n + 1) n []

/-- Python `str` of an integer. -/
def intChars (i : Int) : List Char :=
  if i < 0 then '-' :: natChars (-i).toNat else natChars i.toNat

/-- The characters one case's `print` writes: `print(format_case(case),
solution, sep=sep, file=ostr, flush=True)` emits `"Case #{case}:"`, the
separator (a newline when `insert_newline` is set, a space otherwise), the
solution's text, and the terminating newline, flushed at once. -/
def print_line (k : Nat) (sol : List Char) (insert_newline : Bool) : List Char :=
  "Case #".data ++ natChars k ++ ":".data ++
    (if insert_newline then ['\n'] else [' ']) ++ sol ++ ['\n']

/-- The loop of `print_code_jam` from case number `k`: each iteration pulls
the next solution and issues one atomic, immediately flushed write.  The
sink accepts `cap` more writes (`none`: unlimited) before the broken-pipe
condition, which the source catches, ending the loop silently; a failed
write puts nothing in the sink. -/
def print_from (k : Nat) (nl : Bool) : List (List Char) → Option Nat → List (List Char)
  | [], _ => []
  | _ :: _, some 0 => []
  | s :: rest, some (c + 1) => print_line k s nl :: print_from (k + 1) nl rest (some c)
  | s :: rest, none => print_line k s nl :: print_from (k + 1) nl rest none

/-- `print_code_jam`: format and write every solution, numbering from 1,
returning the lines actually flushed to the sink. -/
def print_code_jam (sols : List (List Char)) (insert_newline : Bool) (cap : Option Nat) : List (List Char) :=
  print_from 1 insert_newline sols cap

/-- `solve_code_jam` end to end, against an always-usable sink: tokenize
the input, drive the counted solver, format and write.  Returns the lines
written and the token-read error, if any, that the run surfaced; the
solutions produced before such an error have already been written. -/
def solve_code_jam (solver : List Token → Except TokError (List Char) × List Token) (input : List Char) (insert_newline : Bool) : List (List Char) × Option TokError :=
  match solve_counted solver (tokenize input) with
  | (sols, e, _) => (print_code_jam sols insert_newline none, e)

/-- A solver for sums: read two integer tokens and return their sum's
text (the example solver of the end-to-end test). -/
def sumSolver (toks : List Token) : Except TokError (List Char) × List Token :=
  match next_token pyInt toks with
  | (.ok a, rest) =>
    match next_token pyInt rest with
    | (.ok b, rest2) => (.ok (intChars (a + b)), rest2)
    | (.error e, rest2) => (.error e, rest2)
  | (.error e, rest) => (.error e, rest)

/-- The reading operations that share a `Tokens` object's cursor: one step
of direct iteration (`next` on the generator `__iter__` returns) and the
three typed reads. -/
inductive ReadOp (α : Type _) where
  | iterOne
  | single (t : Token → Option α)
  | many (n : Nat) (t : Token → Option α)
  | counted (t : Token → Option α)

/-- The cursor left behind by one read operation. -/
def runOp : ReadOp α → List Token → List Token
  | .iterOne, toks => toks.drop 1
  | .single t, toks => (next_token t toks).2
  | .many n t, toks => (next_many_tokens t n toks).2
  | .counted t, toks => (next_counted_tokens t toks).2

/-- The cursor after an interleaving of read operations. -/
def runOps : List (ReadOp α) → List Token → List Token
  | [], toks => toks
  | op :: ops, toks => runOps ops (runOp op toks)

/-- The tokens one operation delivered: the part of the cursor it consumed. -/
def deliveredOp (op : ReadOp α) (toks : List Token) : List Token :=
  toks.take (toks.length - (runOp op toks).length)

/-- The tokens delivered by each operation of an interleaving, in turn. -/
def deliveredOps : List (ReadOp α) → List Token → List (List Token)
  | [], _ => []
  | op :: ops, toks => deliveredOp op toks :: deliveredOps ops (runOp op toks)

/-- C1: on the stream `"3\n1 2\n3 4\n5 6\n"`, the counted driver with the
two-integer sum solver and `insert_newline = false` writes exactly the
lines `Case #1: 3`, `Case #2: 7`, `Case #3: 11`, in that order, and no
error surfaces. -/
theorem c1_end_to_end_sum :
    solve_code_jam sumSolver "3\n1 2\n3 4\n5 6\n".data false =
      (["Case #1: 3\n".data, "Case #2: 7\n".data, "Case #3: 11\n".data], none) := by
  decide

/-- C4: `next_token` on a nonempty cursor consumes exactly the first token
and returns the conversion applied to it; a token the conversion rejects
gives the parse failure, and an empty cursor gives the exhausted failure. -/
theorem c4_next_token_spec (t : Token → Option α) (tok : Token) (rest : List Token) :
    (∀ v, t tok = some v → next_token t (tok :: rest) = (.ok v, rest)) ∧
    (t tok = none → next_token t (tok :: rest) = (.error .parse, rest)) ∧
    next_token t ([] : List Token) = (.error .exhausted, []) := by
  refine ⟨fun v hv => ?_, fun hn => ?_, rfl⟩
  · simp [next_token, hv]
  · simp [next_token, hn]

theorem c4_next_token_spec_witness :
    next_token pyInt ["12".data, "x".data] = (.ok 12, ["x".data]) ∧
    next_token pyInt ["ab".data] = (.error .parse, []) ∧
    next_token pyInt ([] : List Token) = (.error .exhausted, []) := by
  refine ⟨?_, ?_, ?_⟩
  · exact (c4_next_token_spec pyInt "12".data ["x".data]).1 12 (by decide)
  · exact (c4_next_token_spec pyInt "ab".data []).2.1 (by decide)
  · exact (c4_next_token_spec pyInt "q".data []).2.2

/-- C5: fully consuming `next_many_tokens t n` takes exactly the next `n`
tokens, in order, converted by `t`; if fewer than `n` tokens remain (and
the ones present convert), the run fails exhausted and the tokens read
before the failure stay consumed. -/
theorem c5_next_many_spec (t : Token → Option α) (n : Nat) (toks : List Token) :
    (n ≤ toks.length → (∀ tok ∈ toks.take n, (t tok).isSome) →
      next_many_tokens t n toks = (.ok ((toks.take n).filterMap t), toks.drop n)) ∧
    (toks.length < n → (∀ tok ∈ toks, (t tok).isSome) →
      next_many_tokens t n toks = (.error .exhausted, [])) := by
  induction n generalizing toks with
  | zero =>
    refine ⟨fun _ _ => by simp [next_many_tokens], fun h _ => absurd h (by omega)⟩
  | succ n ih =>
    cases toks with
    | nil =>
      refine ⟨fun h _ => absurd h (by simp), fun _ _ => ?_⟩
      simp [next_many_tokens, next_token]
    | cons tok rest =>
      constructor
      · intro hlen hparse
        obtain ⟨v, hv⟩ := Option.isSome_iff_exists.mp (hparse tok (by simp))
        have hrest := (ih rest).1 (by simpa using hlen)
          (fun x hx => hparse x (by simp [List.take_succ_cons, hx]))
        simp [next_many_tokens, next_token, hv, hrest]
      · intro hlen hparse
        obtain ⟨v, hv⟩ := Option.isSome_iff_exists.mp (hparse tok (by simp))
        have hrest := (ih rest).2 (by simpa using hlen)
          (fun x hx => hparse x (by simp [hx]))
        simp [next_many_tokens, next_token, hv, hrest]

theorem c5_next_many_spec_witness :
    next_many_tokens pyInt 2 ["1".data, "2".data, "x".data] = (.ok [(1 : Int), 2], ["x".data]) ∧
    next_many_tokens pyInt 4 ["1".data, "2".data] = (.error .exhausted, []) := by
  constructor
  · have h := (c5_next_many_spec pyInt 2 ["1".data, "2".data, "x".data]).1 (by decide) (by decide)
    exact h.trans (by rfl)
  · exact (c5_next_many_spec pyInt 4 ["1".data, "2".data]).2 (by decide) (by decide)

/-- C6: when the cursor starts with a token for the integer `n` followed by
`n` convertible tokens, `next_counted_tokens` reads exactly those `n`
tokens past the count, whatever follows them; everything after remains on
the cursor, unchanged and in order. -/
theorem c6_next_counted_spec (t : Token → Option α) (cnt : Token) (pre post : List Token)
    (n : Nat) (h1 : pyInt cnt = some (n : Int)) (h2 : pre.length = n)
    (h3 : ∀ tok ∈ pre, (t tok).isSome) :
    next_counted_tokens t (cnt :: (pre ++ post)) = (.ok (pre.filterMap t), post) := by
  have hmany := (c5_next_many_spec t n (pre ++ post)).1
    (by simp [List.length_append]; omega)
    (by intro x hx; subst h2; rw [List.take_left] at hx; exact h3 x hx)
  subst h2
  rw [List.take_left, List.drop_left] at hmany
  simp [next_counted_tokens, next_token, h1, Int.toNat_natCast, hmany]

theorem c6_next_counted_spec_witness :
    next_counted_tokens pyInt ["2".data, "7".data, "8".data, "zz".data] =
      (.ok [(7 : Int), 8], ["zz".data]) := by
  have h := c6_next_counted_spec pyInt "2".data ["7".data, "8".data] ["zz".data] 2
    (by decide) (by decide) (by decide)
  exact h.trans (by rfl)

theorem run_cases_next_token_all (t : Token → Option α) (toks : List Token)
    (h : ∀ tok ∈ toks, (t tok).isSome) :
    run_cases (next_token t) toks.length toks = (toks.filterMap t, none, []) := by
  induction toks with
  | nil => rfl
  | cons tok rest ih =>
    obtain ⟨v, hv⟩ := Option.isSome_iff_exists.mp (h tok (by simp))
    have hr := ih (fun x hx => h x (by simp [hx]))
    simp [run_cases, next_token, hv, hr, List.filterMap_cons]

theorem length_filterMap_of_isSome {β γ : Type _} (f : β → Option γ) (l : List β)
    (h : ∀ x ∈ l, (f x).isSome) : (l.filterMap f).length = l.length := by
  induction l with
  | nil => rfl
  | cons x xs ih =>
    obtain ⟨v, hv⟩ := Option.isSome_iff_exists.mp (h x (by simp))
    simp [List.filterMap_cons, hv, ih (fun y hy => h y (by simp [hy]))]

/-- C2: on a stream whose first token is the count `n` followed by `n`
integer tokens, the counted driver with the one-integer solver produces
exactly those `n` integers, in input order, with no error and the stream
fully consumed; with count zero it produces no solutions and the formatter
then writes no lines. -/
theorem c2_counted_driver_spec (cnt : Token) (toks : List Token)
    (h1 : pyInt cnt = some (toks.length : Int))
    (h2 : ∀ tok ∈ toks, (pyInt tok).isSome) :
    solve_counted (next_token pyInt) (cnt :: toks) = (toks.filterMap pyInt, none, []) ∧
    (toks.filterMap pyInt).length = toks.length ∧
    (toks = [] →
      print_code_jam ((solve_counted (next_token pyInt) (cnt :: toks)).1.map intChars)
        false none = []) := by
  have hrun := run_cases_next_token_all pyInt toks h2
  have hmain : solve_counted (next_token pyInt) (cnt :: toks) = (toks.filterMap pyInt, none, []) := by
    simp [solve_counted, next_token, h1, Int.toNat_natCast, hrun]
  refine ⟨hmain, length_filterMap_of_isSome pyInt toks h2, fun hnil => ?_⟩
  subst hnil
  rw [hmain]
  rfl

theorem c2_counted_driver_spec_witness :
    solve_counted (next_token pyInt) ["2".data, "3".data, "4".data] = ([(3 : Int), 4], none, []) ∧
    solve_counted (next_token pyInt) ["0".data] = ([], none, []) := by
  constructor
  · have h := (c2_counted_driver_spec "2".data ["3".data, "4".data] (by decide) (by decide)).1
    exact h.trans (by rfl)
  · have h := (c2_counted_driver_spec "0".data [] (by decide) (by decide)).1
    exact h.trans (by rfl)

theorem mapIdx_ext {β γ : Type _} (f g : Nat → β → γ) (l : List β)
    (h : ∀ i s, f i s = g i s) : l.mapIdx f = l.mapIdx g := by
  induction l generalizing f g with
  | nil => simp
  | cons x xs ih =>
    simp only [List.mapIdx_cons, h]
    rw [ih (fun i => f (i + 1)) (fun i => g (i + 1)) (fun i s => h (i + 1) s)]

theorem print_from_none_eq_mapIdx (nl : Bool) (sols : List (List Char)) (k : Nat) :
    print_from k nl sols none = sols.mapIdx (fun i s => print_line (k + i) s nl) := by
  induction sols generalizing k with
  | nil => rfl
  | cons s rest ih =>
    rw [List.mapIdx_cons]
    simp only [print_from, ih (k + 1), Nat.add_zero]
    congr 1
    refine mapIdx_ext _ _ rest (fun i s => ?_)
    have h2 : k + 1 + i = k + (i + 1) := by omega
    rw [h2]

/-- C3: with an always-usable sink, the formatter writes one entry per
solution: the `k`-th (1-indexed) is `"Case #k:"`, then a space and the
value (plain mode) or a newline and the value (`insert_newline` mode),
terminated by a newline and flushed as one write. -/
theorem c3_formatter_spec (sols : List (List Char)) (nl : Bool) :
    print_code_jam sols nl none =
      sols.mapIdx (fun i s =>
        "Case #".data ++ natChars (i + 1) ++ ":".data ++
          (if nl then ['\n'] else [' ']) ++ s ++ ['\n']) := by
  rw [print_code_jam, print_from_none_eq_mapIdx]
  congr 1
  funext i s
  simp [print_line, Nat.add_comm]

theorem print_from_some_eq_take (nl : Bool) (sols : List (List Char)) (k j : Nat) :
    print_from k nl sols (some j) = (print_from k nl sols none).take j := by
  induction sols generalizing k j with
  | nil => simp [print_from]
  | cons s rest ih =>
    cases j with
    | zero => simp [print_from]
    | succ j => simp [print_from, ih (k + 1) j]

theorem length_print_from_none (nl : Bool) (sols : List (List Char)) (k : Nat) :
    (print_from k nl sols none).length = sols.length := by
  induction sols generalizing k with
  | nil => rfl
  | cons s rest ih => simp [print_from, ih]

theorem print_line_getLast (k : Nat) (s : List Char) (nl : Bool) :
    (print_line k s nl).getLast? = some '\n' := by
  have h : print_line k s nl =
      ("Case #".data ++ natChars k ++ ":".data ++
        (if nl then ['\n'] else [' ']) ++ s) ++ ['\n'] := by
    simp [print_line, List.append_assoc]
  rw [h, List.getLast?_concat]

theorem mem_print_from (nl : Bool) (cap : Option Nat) (sols : List (List Char)) (k : Nat)
    (line : List Char) (h : line ∈ print_from k nl sols cap) :
    ∃ i s, line = print_line i s nl := by
  induction sols generalizing k cap with
  | nil => simp [print_from] at h
  | cons s rest ih =>
    cases cap with
    | none =>
      rcases List.mem_cons.mp (by simpa [print_from] using h) with h1 | h2
      · exact ⟨k, s, h1⟩
      · exact ih none (k + 1) h2
    | some c =>
      cases c with
      | zero => simp [print_from] at h
      | succ c =>
        rcases List.mem_cons.mp (by simpa [print_from] using h) with h1 | h2
        · exact ⟨k, s, h1⟩
        · exact ih (some c) (k + 1) h2

/-- C7: if the sink stops accepting writes after `j` of them, the formatter
ends silently having put exactly the first `j` case lines in the sink, each
a complete line ending in a newline; nothing partial follows and no error
reaches the caller (the model's return value is an ordinary list). -/
theorem c7_broken_pipe_spec (sols : List (List Char)) (nl : Bool) (j : Nat)
    (h : j ≤ sols.length) :
    print_code_jam sols nl (some j) = (print_code_jam sols nl none).take j ∧
    (print_code_jam sols nl (some j)).length = j ∧
    ∀ line ∈ print_code_jam sols nl (some j), line.getLast? = some '\n' := by
  refine ⟨print_from_some_eq_take nl sols 1 j, ?_, ?_⟩
  · rw [print_code_jam, print_from_some_eq_take, List.length_take, length_print_from_none]
    omega
  · intro line hline
    obtain ⟨i, s, rfl⟩ := mem_print_from nl (some j) sols 1 line hline
    exact print_line_getLast i s nl

theorem c7_broken_pipe_spec_witness :
    print_code_jam [['a'], ['b'], ['c']] false (some 2) =
      (print_code_jam [['a'], ['b'], ['c']] false none).take 2 ∧
    (print_code_jam [['a'], ['b'], ['c']] false (some 2)).length = 2 ∧
    ∀ line ∈ print_code_jam [['a'], ['b'], ['c']] false (some 2), line.getLast? = some '\n' :=
  c7_broken_pipe_spec [['a'], ['b'], ['c']] false 2 (by decide)

theorem digitChar_ne_nl (d : Nat) : digitChar d ≠ '\n' := by
  unfold digitChar
  split <;> decide

theorem mem_natCharsAux (fuel n : Nat) (acc : List Char) (c : Char)
    (h : c ∈ natCharsAux fuel n acc) : c ∈ acc ∨ ∃ d, c = digitChar d := by
  induction fuel generalizing n acc with
  | zero => exact Or.inl h
  | succ fuel ih =>
    simp only [natCharsAux] at h
    by_cases hn : n < 10
    · simp only [hn, if_true] at h
      rcases List.mem_cons.mp h with h2 | h2
      · exact Or.inr ⟨n, h2⟩
      · exact Or.inl h2
    · simp only [hn, if_false] at h
      rcases ih (n / 10) (digitChar (n % 10) :: acc) h with h2 | h2
      · rcases List.mem_cons.mp h2 with h3 | h3
        · exact Or.inr ⟨n % 10, h3⟩
        · exact Or.inl h3
      · exact Or.inr h2

theorem natChars_ne_nl (n : Nat) (c : Char) (h : c ∈ natChars n) : c ≠ '\n' := by
  rcases mem_natCharsAux (n + 1) n [] c h with h2 | ⟨d, rfl⟩
  · simp at h2
  · exact digitChar_ne_nl d

theorem splitLines_append_line (l rest : List Char) (h : ∀ c ∈ l, c ≠ '\n') :
    splitLines (l ++ '\n' :: rest) = (l ++ ['\n']) :: splitLines rest := by
  induction l with
  | nil => simp [splitLines]
  | cons c l ih =>
    have hc : c ≠ '\n' := h c (by simp)
    rw [List.cons_append]
    simp only [splitLines, hc, if_false, ih (fun x hx => h x (by simp [hx])), List.cons_append]

theorem no_nl_print_line_head (k : Nat) (s : List Char) (h : '\n' ∉ s) :
    ∀ c ∈ "Case #".data ++ natChars k ++ ":".data ++ [' '] ++ s, c ≠ '\n' := by
  intro c hc
  simp only [List.mem_append] at hc
  rcases hc with (((hc | hc) | hc) | hc) | hc
  · fin_cases hc <;> decide
  · exact natChars_ne_nl k c hc
  · fin_cases hc
    decide
  · fin_cases hc
    decide
  · exact fun he => h (he ▸ hc)

theorem splitLines_flatten_print_from (sols : List (List Char)) (k : Nat)
    (h : ∀ s ∈ sols, '\n' ∉ s) :
    splitLines (print_from k false sols none).flatten = print_from k false sols none := by
  induction sols generalizing k with
  | nil => rfl
  | cons s rest ih =>
    have hline : print_line k s false =
        ("Case #".data ++ natChars k ++ ":".data ++ [' '] ++ s) ++ ['\n'] := by
      simp [print_line, List.append_assoc]
    simp only [print_from, List.flatten_cons]
    rw [hline, List.append_assoc, List.singleton_append,
      splitLines_append_line _ _ (no_nl_print_line_head k s (h s (by simp))),
      ih (k + 1) (fun x hx => h x (by simp [hx])), ← hline]

/-- C9: formatting `k` newline-free solutions in plain mode and splitting
the sink's contents back into lines recovers exactly `k` lines, the `i`-th
being the complete `Case #i: value_i` line. -/
theorem c9_round_trip (sols : List (List Char)) (h : ∀ s ∈ sols, '\n' ∉ s) :
    splitLines (print_code_jam sols false none).flatten =
      sols.mapIdx (fun i s => print_line (i + 1) s false) ∧
    (splitLines (print_code_jam sols false none).flatten).length = sols.length := by
  have h1 := splitLines_flatten_print_from sols 1 h
  have h2 := print_from_none_eq_mapIdx false sols 1
  constructor
  · rw [print_code_jam, h1, h2]
    refine mapIdx_ext _ _ sols (fun i s => ?_)
    have e : 1 + i = i + 1 := by omega
    rw [e]
  · rw [print_code_jam, h1, length_print_from_none]

theorem c9_round_trip_witness :
    splitLines (print_code_jam [['x'], ['y']] false none).flatten =
      [print_line 1 ['x'] false, print_line 2 ['y'] false] ∧
    (splitLines (print_code_jam [['x'], ['y']] false none).flatten).length = 2 := by
  have h := c9_round_trip [['x'], ['y']] (by decide)
  exact ⟨h.1.trans (by rfl), h.2⟩

theorem next_token_snd (t : Token → Option α) (toks : List Token) :
    (next_token t toks).2 = toks.drop 1 := by
  cases toks with
  | nil => rfl
  | cons tok rest => cases h : t tok <;> simp [next_token, h]

theorem next_many_snd_suffix (t : Token → Option α) (n : Nat) (toks : List Token) :
    (next_many_tokens t n toks).2 <:+ toks := by
  induction n generalizing toks with
  | zero => exact List.suffix_refl _
  | succ n ih =>
    cases toks with
    | nil =>
      have e : (next_many_tokens t (n + 1) ([] : List Token)).2 = [] := rfl
      rw [e]
    | cons tok rest =>
      cases h : t tok with
      | none =>
        have e : (next_many_tokens t (n + 1) (tok :: rest)).2 = rest := by
          simp [next_many_tokens, next_token, h]
        rw [e]
        exact List.suffix_cons tok rest
      | some v =>
        have e : (next_many_tokens t (n + 1) (tok :: rest)).2 = (next_many_tokens t n rest).2 := by
          simp only [next_many_tokens, next_token, h]
          rcases hm : next_many_tokens t n rest with ⟨r1, r2⟩
          cases r1 <;> rfl
        rw [e]
        exact (ih rest).trans (List.suffix_cons tok rest)

theorem next_counted_snd_suffix (t : Token → Option α) (toks : List Token) :
    (next_counted_tokens t toks).2 <:+ toks := by
  rcases h : next_token pyInt toks with ⟨r1, rest⟩
  have hrest : rest = toks.drop 1 := by
    have h2 := next_token_snd pyInt toks
    rw [h] at h2
    exact h2
  cases r1 with
  | ok n =>
    have e : (next_counted_tokens t toks).2 = (next_many_tokens t n.toNat rest).2 := by
      simp [next_counted_tokens, h]
    rw [e]
    refine (next_many_snd_suffix t n.toNat rest).trans ?_
    rw [hrest]
    exact List.drop_suffix 1 toks
  | error e2 =>
    have e : (next_counted_tokens t toks).2 = rest := by
      simp [next_counted_tokens, h]
    rw [e, hrest]
    exact List.drop_suffix 1 toks

theorem runOp_suffix (op : ReadOp α) (toks : List Token) : runOp op toks <:+ toks := by
  cases op with
  | iterOne => exact List.drop_suffix 1 toks
  | single t =>
    rw [runOp, next_token_snd]
    exact List.drop_suffix 1 toks
  | many n t => exact next_many_snd_suffix t n toks
  | counted t => exact next_counted_snd_suffix t toks

theorem deliveredOp_append_runOp (op : ReadOp α) (toks : List Token) :
    deliveredOp op toks ++ runOp op toks = toks := by
  obtain ⟨d, hd⟩ := runOp_suffix op toks
  have h1 := congrArg List.length hd
  rw [List.length_append] at h1
  have hlen : toks.length - (runOp op toks).length = d.length := by omega
  have htake : toks.take d.length = d := by
    conv_lhs => rw [← hd]
    exact List.take_left d (runOp op toks)
  rw [deliveredOp, hlen, htake]
  exact hd

/-- C10: all reads drain one shared forward cursor: under any interleaving
of iteration steps and typed reads, the tokens delivered are, in
concatenation, an initial segment of the source in source order, and what
is left is exactly the rest — so no token is delivered twice or out of
order. -/
theorem c10_single_cursor (ops : List (ReadOp α)) (toks : List Token) :
    (deliveredOps ops toks).flatten ++ runOps ops toks = toks := by
  induction ops generalizing toks with
  | nil => simp [deliveredOps, runOps]
  | cons op ops ih =>
    simp only [deliveredOps, runOps, List.flatten_cons, List.append_assoc]
    rw [ih (runOp op toks)]
    exact deliveredOp_append_runOp op toks

theorem maximalRuns_nil : maximalRuns [] = [] := by
  rw [maximalRuns]

theorem maximalRuns_cons_of_space (c : Char) (cs : List Char) (h : isSpace c = true) :
    maximalRuns (c :: cs) = maximalRuns cs := by
  rw [maximalRuns, if_pos h]

theorem maximalRuns_cons_of_not_space (c : Char) (cs : List Char) (h : isSpace c = false) :
    maximalRuns (c :: cs) =
      (c :: cs.takeWhile (fun d => !isSpace d)) ::
        maximalRuns (cs.dropWhile (fun d => !isSpace d)) := by
  rw [maximalRuns, if_neg (by simp [h])]

theorem dropWhile_head_false {β : Type _} {p : β → Bool} (l : List β) (x : β) (xs : List β)
    (h : l.dropWhile p = x :: xs) : p x = false := by
  induction l with
  | nil => simp at h
  | cons y ys ih =>
    rw [List.dropWhile_cons] at h
    by_cases hy : p y = true
    · rw [if_pos hy] at h
      exact ih h
    · rw [if_neg hy] at h
      injection h with h1 _
      subst h1
      exact Bool.eq_false_iff.mpr hy

theorem dropWhile_getLast? {β : Type _} {p : β → Bool} (l : List β) (z : β)
    (h : l.getLast? = some z) (hz : p z = false) :
    (l.dropWhile p).getLast? = some z := by
  induction l with
  | nil => simp at h
  | cons x xs ih =>
    cases xs with
    | nil =>
      rw [List.getLast?_singleton] at h
      injection h with h1
      subst h1
      rw [List.dropWhile_cons, if_neg (by simp [hz]), List.getLast?_singleton]
    | cons y ys =>
      rw [List.getLast?_cons_cons] at h
      rw [List.dropWhile_cons]
      by_cases hx : p x = true
      · rw [if_pos hx]
        exact ih h
      · rw [if_neg hx, List.getLast?_cons_cons]
        exact h

theorem takeWhile_append_of_mem {β : Type _} {p : β → Bool} (a b : List β) (z : β)
    (hmem : z ∈ a) (hz : p z = false) :
    List.takeWhile p (a ++ b) = List.takeWhile p a := by
  rw [List.takeWhile_append, if_neg ?_]
  intro hlen
  have heq : List.takeWhile p a = a := (List.takeWhile_prefix p).eq_of_length hlen
  have := List.mem_takeWhile_imp (heq ▸ hmem)
  rw [hz] at this
  exact Bool.false_ne_true this

theorem dropWhile_append_of_mem {β : Type _} {p : β → Bool} (a b : List β) (z : β)
    (hmem : z ∈ a) (hz : p z = false) :
    List.dropWhile p (a ++ b) = List.dropWhile p a ++ b := by
  rw [List.dropWhile_append, if_neg ?_]
  intro hemp
  have hnil : List.dropWhile p a = [] := by
    cases hd : List.dropWhile p a with
    | nil => rfl
    | cons u us => rw [hd] at hemp; simp at hemp
  have := List.dropWhile_eq_nil_iff.mp hnil z hmem
  rw [hz] at this
  exact Bool.false_ne_true this

/-- Splicing runs at a whitespace boundary: a stream whose last character
is whitespace tokenizes independently of what is appended after it. -/
theorem maximalRuns_append (a b : List Char) (z : Char)
    (ha : a.getLast? = some z) (hz : isSpace z = true) :
    maximalRuns (a ++ b) = maximalRuns a ++ maximalRuns b := by
  cases a with
  | nil => simp at ha
  | cons x a2 =>
    cases a2 with
    | nil =>
      rw [List.getLast?_singleton] at ha
      injection ha with h1
      rw [← h1] at hz
      rw [List.cons_append, List.nil_append, maximalRuns_cons_of_space x b hz,
        maximalRuns_cons_of_space x [] hz, maximalRuns_nil, List.nil_append]
    | cons y a3 =>
      rw [List.getLast?_cons_cons] at ha
      have hmem : z ∈ y :: a3 := List.mem_of_mem_getLast? (Option.mem_def.mpr ha)
      by_cases hx : isSpace x = true
      · rw [List.cons_append, maximalRuns_cons_of_space x ((y :: a3) ++ b) hx,
          maximalRuns_cons_of_space x (y :: a3) hx]
        exact maximalRuns_append (y :: a3) b z ha hz
      · have hxf : isSpace x = false := Bool.eq_false_iff.mpr hx
        have hzp : (!isSpace z) = false := by simp [hz]
        have htw := takeWhile_append_of_mem (p := fun d => !isSpace d) (y :: a3) b z hmem hzp
        have hdw := dropWhile_append_of_mem (p := fun d => !isSpace d) (y :: a3) b z hmem hzp
        have hlast := dropWhile_getLast? (p := fun d => !isSpace d) (y :: a3) z ha hzp
        rw [List.cons_append, maximalRuns_cons_of_not_space x ((y :: a3) ++ b) hxf,
          maximalRuns_cons_of_not_space x (y :: a3) hxf, htw, hdw,
          maximalRuns_append (List.dropWhile (fun d => !isSpace d) (y :: a3)) b z hlast hz,
          List.cons_append]
termination_by a.length
decreasing_by
  · subst_vars
    simp only [List.length_cons]
    omega
  · subst_vars
    have h2 : (List.dropWhile (fun d => !isSpace d) (y :: a3)).length ≤ (y :: a3).length :=
      (List.dropWhile_suffix _).length_le
    simp only [List.length_cons] at h2 ⊢
    omega

/-- The tail of `fields`: the fields after the first whitespace separator. -/
def fieldsRest (cs : List Char) : List (List Char) :=
  match cs.dropWhile (fun d => !isSpace d) with
  | [] => []
  | _ :: rest => fields rest

theorem fields_cons_of_space (c : Char) (cs : List Char) (h : isSpace c = true) :
    fields (c :: cs) = [] :: fields cs := by
  simp only [fields, if_pos h]

theorem fieldsRest_cons_of_space (c : Char) (cs : List Char) (h : isSpace c = true) :
    fieldsRest (c :: cs) = fields cs := by
  simp [fieldsRest, List.dropWhile_cons, h]

theorem fieldsRest_cons_of_not_space (c : Char) (cs : List Char) (h : isSpace c = false) :
    fieldsRest (c :: cs) = fieldsRest cs := by
  simp [fieldsRest, List.dropWhile_cons, h]

theorem fields_cons_of_not_space (c : Char) (cs : List Char) (h : isSpace c = false)
    (f : List Char) (fs : List (List Char)) (hf : fields cs = f :: fs) :
    fields (c :: cs) = (c :: f) :: fs := by
  simp [fields, h, hf]

theorem fields_head_tail (cs : List Char) :
    fields cs = cs.takeWhile (fun d => !isSpace d) :: fieldsRest cs := by
  induction cs with
  | nil => rfl
  | cons c cs2 ih =>
    by_cases hc : isSpace c = true
    · rw [fields_cons_of_space c cs2 hc, fieldsRest_cons_of_space c cs2 hc]
      simp [List.takeWhile_cons, hc]
    · have hcf : isSpace c = false := Bool.eq_false_iff.mpr hc
      rw [fields_cons_of_not_space c cs2 hcf _ _ ih, fieldsRest_cons_of_not_space c cs2 hcf]
      simp [List.takeWhile_cons, hcf]

theorem pysplit_cons_of_space (c : Char) (cs : List Char) (h : isSpace c = true) :
    pysplit (c :: cs) = pysplit cs := by
  rw [pysplit, fields_cons_of_space c cs h, List.filter_cons, if_neg (by simp)]
  rfl

/-- The per-line split agrees with the direct maximal-run description. -/
theorem pysplit_eq_maximalRuns (cs : List Char) : pysplit cs = maximalRuns cs := by
  induction cs using maximalRuns.induct with
  | case1 =>
    rw [maximalRuns_nil]
    rfl
  | case2 c cs hc ih =>
    rw [pysplit_cons_of_space c cs hc, ih, maximalRuns_cons_of_space c cs hc]
  | case3 c cs hc ih =>
    have hcf : isSpace c = false := Bool.eq_false_iff.mpr hc
    rw [maximalRuns_cons_of_not_space c cs hcf, pysplit]
    have h1 : fields (c :: cs) =
        (c :: List.takeWhile (fun d => !isSpace d) cs) :: fieldsRest cs :=
      fields_cons_of_not_space c cs hcf _ _ (fields_head_tail cs)
    rw [h1, List.filter_cons, if_pos (by simp)]
    congr 1
    cases hd : List.dropWhile (fun d => !isSpace d) cs with
    | nil =>
      rw [maximalRuns_nil]
      simp [fieldsRest, hd]
    | cons d rest =>
      have hdf : isSpace d = true := by
        have h2 := dropWhile_head_false cs d rest hd
        simpa using h2
      have h3 : fieldsRest cs = fields rest := by simp [fieldsRest, hd]
      have ih2 := ih
      rw [hd, pysplit_cons_of_space d rest hdf, maximalRuns_cons_of_space d rest hdf] at ih2
      rw [maximalRuns_cons_of_space d rest hdf, h3, ← ih2]
      rfl

theorem eq_nil_of_splitLines_eq_nil (cs : List Char) (h : splitLines cs = []) : cs = [] := by
  cases cs with
  | nil => rfl
  | cons c cs2 =>
    exfalso
    by_cases hc : c = '\n'
    · simp [splitLines, hc] at h
    · simp only [splitLines, if_neg hc] at h
      cases hm : splitLines cs2 with
      | nil =>
        rw [hm] at h
        simp at h
      | cons l ls =>
        rw [hm] at h
        simp at h

theorem splitLines_cons_structure (cs l : List Char) (ls : List (List Char))
    (h : splitLines cs = l :: ls) :
    (cs = l ∧ ls = []) ∨
      (∃ rest, cs = l ++ rest ∧ splitLines rest = ls ∧ l.getLast? = some '\n') := by
  induction cs generalizing l ls with
  | nil => simp [splitLines] at h
  | cons c cs2 ih =>
    by_cases hc : c = '\n'
    · subst hc
      rw [splitLines, if_pos rfl] at h
      injection h with h1 h2
      subst h1
      subst h2
      exact Or.inr ⟨cs2, rfl, rfl, rfl⟩
    · rw [splitLines, if_neg hc] at h
      cases hm : splitLines cs2 with
      | nil =>
        rw [hm] at h
        injection h with h1 h2
        subst h1
        subst h2
        have h3 : cs2 = [] := eq_nil_of_splitLines_eq_nil cs2 hm
        subst h3
        exact Or.inl ⟨rfl, rfl⟩
      | cons l1 ls1 =>
        rw [hm] at h
        injection h with h1 h2
        subst h1
        subst h2
        rcases ih l1 ls1 hm with ⟨h3, h4⟩ | ⟨rest, h3, h4, h5⟩
        · subst h3
          subst h4
          exact Or.inl ⟨rfl, rfl⟩
        · right
          refine ⟨rest, ?_, h4, ?_⟩
          · rw [h3, List.cons_append]
          · cases l1 with
            | nil => simp at h5
            | cons u us =>
              rw [List.getLast?_cons_cons]
              exact h5

theorem flatMap_ext {β γ : Type _} (f g : β → List γ) (l : List β)
    (h : ∀ x, f x = g x) : l.flatMap f = l.flatMap g := by
  induction l with
  | nil => rfl
  | cons x xs ih => simp [List.flatMap_cons, h, ih]

/-- Splitting into lines first and then splitting each line commutes with
tokenizing the stream as one flat character sequence. -/
theorem flatMap_maximalRuns_splitLines (cs : List Char) :
    (splitLines cs).flatMap maximalRuns = maximalRuns cs := by
  cases hm : splitLines cs with
  | nil =>
    have h : cs = [] := eq_nil_of_splitLines_eq_nil cs hm
    subst h
    rw [maximalRuns_nil]
    rfl
  | cons l ls =>
    rw [List.flatMap_cons]
    rcases splitLines_cons_structure cs l ls hm with ⟨h1, h2⟩ | ⟨rest, h1, h2, h3⟩
    · subst h2
      subst h1
      simp
    · subst h1
      rw [← h2, flatMap_maximalRuns_splitLines rest,
        maximalRuns_append l rest '\n' h3 (by decide)]
termination_by cs.length
decreasing_by
  have hl : l ≠ [] := by
    intro he
    rw [he] at h3
    simp at h3
  have h4 : 0 < l.length := List.length_pos.mpr hl
  rw [h1, List.length_append]
  omega

theorem maximalRuns_tokens (cs : List Char) :
    ∀ tok ∈ maximalRuns cs, tok ≠ [] ∧ ∀ c ∈ tok, isSpace c = false := by
  induction cs using maximalRuns.induct with
  | case1 =>
    rw [maximalRuns_nil]
    intro tok htok
    simp at htok
  | case2 c cs hc ih =>
    rw [maximalRuns_cons_of_space c cs hc]
    exact ih
  | case3 c cs hc ih =>
    have hcf : isSpace c = false := Bool.eq_false_iff.mpr hc
    rw [maximalRuns_cons_of_not_space c cs hcf]
    intro tok htok
    rcases List.mem_cons.mp htok with h1 | h1
    · subst h1
      refine ⟨by simp, ?_⟩
      intro x hx
      rcases List.mem_cons.mp hx with h2 | h2
      · subst h2
        exact hcf
      · have h3 := List.mem_takeWhile_imp h2
        simpa using h3
    · exact ih tok h1

/-- C8: `tokenize` yields exactly the maximal non-whitespace runs of the
stream, in stream order — line boundaries separate tokens exactly like
intra-line whitespace — and every yielded token is nonempty and free of
embedded whitespace. -/
theorem c8_tokenize_spec (stream : List Char) :
    tokenize stream = maximalRuns stream ∧
    ∀ tok ∈ tokenize stream, tok ≠ [] ∧ ∀ c ∈ tok, isSpace c = false := by
  have h1 : tokenize stream = maximalRuns stream := by
    rw [tokenize, flatMap_ext pysplit maximalRuns _ pysplit_eq_maximalRuns,
      flatMap_maximalRuns_splitLines]
  refine ⟨h1, ?_⟩
  rw [h1]
  exact maximalRuns_tokens stream

theorem c8_tokenize_spec_witness :
    tokenize " a\nbb  c\n".data = maximalRuns " a\nbb  c\n".data ∧
    (['a'] ≠ [] ∧ ∀ c ∈ ['a'], isSpace c = false) := by
  have h := c8_tokenize_spec " a\nbb  c\n".data
  exact ⟨h.1, h.2 ['a'] (by decide)⟩
